import Mathlib

/-!
# Verification of the MASP ZIP32 key-derivation core

A shallow embedding of `masp_primitives/src/zip32.rs` (hierarchical
deterministic key derivation and diversifier search) together with proofs
of the specified properties.

Modelling conventions:

* Bytes are `Nat` values; byte strings are `List Nat`.  Wherever the Rust
  code performs wrapping machine arithmetic (`u8`, `u32`) the model takes
  the corresponding `% 256` / `% 2 ^ 32` explicitly.
* The jubjub scalar field `Fr` is `ZMod qOrder` with `qOrder` the order of
  the prime-order subgroup; `from_bytes_wide` is little-endian decoding
  followed by the natural ring cast (reduction mod `qOrder`), exactly as in
  the source.
* External collaborators (the BLAKE2b hash, the `prf_expand` keyed
  expansion, curve points with their two fixed generators, the FF1
  format-preserving cipher and the diversifier validity test) are fields of
  a `Prims` structure; every theorem is universally quantified over the
  primitives, with the collaborator contracts of the specification as
  explicit hypotheses where a claim needs them.
* Curve points are an abstract type `Prims.Point` with addition and the
  two fixed-base scalar multiplications as primitive operations, so the
  homomorphism property used by viewing-key child derivation is an explicit
  hypothesis, not an artifact of the model.
* The `keys.rs` / `primitives.rs` modules of the repository (only consumed
  here: `ExpandedSpendingKey`, `FullViewingKey`, `prf_expand`, payment
  addresses) are modelled from the specification where marked.
-/

namespace Masp

/-! ## Little-endian byte strings -/

/-- Little-endian value of a byte string. -/
def leNat : List Nat → Nat
  | [] => 0
  | b :: rest => b + 256 * leNat rest

/-- Little-endian encoding of `n` into `len` bytes (wrapping mod `256 ^ len`),
modelling `LittleEndian::write_u32` and scalar `to_repr`. -/
def natLeBytes (n : Nat) : Nat → List Nat
  | 0 => []
  | len + 1 => n % 256 :: natLeBytes (n / 256) len

/-- A wellformed byte string: every byte is below 256. -/
def BytesWf (bs : List Nat) : Prop := ∀ b ∈ bs, b < 256

instance (bs : List Nat) : Decidable (BytesWf bs) := by
  unfold BytesWf; infer_instance

/-! ## Diversifier indices and `DiversifierIndex::increment`

`DiversifierIndex` is an 11-byte little-endian counter.  `increment`
mutates the byte array in place: each byte is incremented with wraparound,
stopping at the first byte that did not wrap; if every byte wraps the
function returns `Err(())`.  `incBytes` returns the final state of the
byte array together with the success flag. -/

/-- An 11-byte little-endian counter into the diversifier space. -/
abbrev DiversifierIndex := List Nat

/-- Wellformedness of a diversifier index: 11 bytes, each below 256. -/
def IdxWf (j : DiversifierIndex) : Prop := j.length = 11 ∧ BytesWf j

instance (j : DiversifierIndex) : Decidable (IdxWf j) := by
  unfold IdxWf; infer_instance

/-- The in-place byte-by-byte carry loop of `DiversifierIndex::increment`:
result state and success flag (`false` = overflow, `Err(())`). -/
def incBytes : List Nat → List Nat × Bool
  | [] => ([], false)
  | b :: rest =>
    let b' := (b + 1) % 256
    if b' = 0 then
      let r := incBytes rest
      (b' :: r.1, r.2)
    else
      (b' :: rest, true)

/-- `DiversifierIndex::increment`, returning the final index together with
`true` for `Ok(())` and `false` for `Err(())`. -/
def DiversifierIndex.increment (j : DiversifierIndex) : DiversifierIndex × Bool :=
  incBytes j

/-! ## The jubjub scalar field and external primitives -/

/-- Order of the prime-order subgroup of jubjub (the modulus of `jubjub::Fr`). -/
def qOrder : Nat :=
  6554484396890773809930967563523245729705921265872317281365359162392183254199

instance : NeZero qOrder := ⟨by decide⟩

/-- The scalar field `jubjub::Fr`; "scalars are always reduced modulo the
group order" holds by construction. -/
abbrev Scalar := ZMod qOrder

/-- `jubjub::Fr::from_bytes_wide`: little-endian decoding of 64 bytes,
reduced into the scalar field. -/
def fromBytesWide (bs : List Nat) : Scalar := (leNat bs : Scalar)

/-- Canonical 32-byte little-endian encoding of a scalar (`to_repr`). -/
def scalarBytes (s : Scalar) : List Nat := natLeBytes s.val 32

/-- The external collaborators consumed by the core, per the interface
contracts of the specification: the keyed expansion primitive, the
personalized BLAKE2b hash, abstract curve points with the two fixed-base
scalar multiplications, the FF1 format-preserving cipher over the 88-bit
domain, the diversifier validity test (`g_d`), and payment-address
construction.  Every theorem below is quantified over these. -/
structure Prims where
  Point : Type
  prfExpandVec : List Nat → List (List Nat) → List Nat
  blake2b : List Nat → List Nat → Nat → List Nat
  padd : Point → Point → Point
  g1mul : Scalar → Point
  g2mul : Scalar → Point
  ptBytes : Point → List Nat
  ptParse : List Nat → Option Point
  fpeEncrypt : List Nat → List Nat → List Nat
  fpeDecrypt : List Nat → List Nat → List Nat
  validDiversifier : List Nat → Bool
  toPaymentAddress : Point → Point → List Nat → Option (List Nat)

/-- `prf_expand(sk, t) = prf_expand_vec(sk, [t])`. -/
def prfExpand (P : Prims) (sk t : List Nat) : List Nat := P.prfExpandVec sk [t]

/-- ASCII bytes of a personalization string. -/
def asciiBytes (s : String) : List Nat := s.toList.map Char.toNat

def ZIP32_SAPLING_MASTER_PERSONALIZATION : List Nat := asciiBytes "MASP_IP32Sapling"

def ZIP32_SAPLING_FVFP_PERSONALIZATION : List Nat := asciiBytes "MASP_SaplingFVFP"

def ZIP32_SAPLING_INT_PERSONALIZATION : List Nat := asciiBytes "MASP__SaplingInt"

/-- The contracts on primitive output lengths that the fixed-width Rust
buffer types (`[u8; 64]`, `[u8; 32]`, …) guarantee: `prf_expand` returns
64 bytes, BLAKE2b returns its requested hash length, point encodings are
32 bytes, and an encoded point decodes back to itself. -/
def PrimsOk (P : Prims) : Prop :=
  (∀ k ts, (P.prfExpandVec k ts).length = 64) ∧
  (∀ pers data len, (P.blake2b pers data len).length = len) ∧
  (∀ pt, (P.ptBytes pt).length = 32) ∧
  (∀ pt, P.ptParse (P.ptBytes pt) = some pt)

/-! ## Child indices -/

/-- `ChildIndex`: hardened or non-hardened position among siblings. -/
inductive ChildIndex where
  | NonHardened : Nat → ChildIndex
  | Hardened : Nat → ChildIndex
deriving DecidableEq, Repr

namespace ChildIndex

/-- `ChildIndex::from_index`. -/
def from_index (i : Nat) : ChildIndex :=
  if i ≥ 2 ^ 31 then .Hardened (i - 2 ^ 31) else .NonHardened i

/-- `ChildIndex::master()`. -/
def master : ChildIndex := from_index 0

/-- `ChildIndex::value`: the serialized `u32` (wrapping, as `u32` addition
does in release builds). -/
def value : ChildIndex → Nat
  | .NonHardened i => i % 2 ^ 32
  | .Hardened i => (i + 2 ^ 31) % 2 ^ 32

end ChildIndex

/-- The `u32` argument range that `ChildIndex::from_index` produces and on
which `value` is exact: raw index below `2^31`. -/
def CanonicalIndex : ChildIndex → Prop
  | .NonHardened i => i < 2 ^ 31
  | .Hardened i => i < 2 ^ 31

instance (i : ChildIndex) : Decidable (CanonicalIndex i) := by
  cases i <;> (unfold CanonicalIndex; infer_instance)

/-! ## Expanded spending keys and full viewing keys

These live in the repository's `keys.rs`, which is only consumed by
`zip32.rs`; they are modelled from the specification. -/

/-- Modelled from the spec: `ExpandedSpendingKey` of `keys.rs` — "spend
authority material: two scalar field elements (ask, nsk) + 32-byte
outgoing-viewing key". -/
structure ExpandedSpendingKey where
  ask : Scalar
  nsk : Scalar
  ovk : List Nat
deriving DecidableEq

/-- Modelled from the spec: `FullViewingKey` of `keys.rs` — "two curve
points (ak = G₁·ask, nk = G₂·nsk) + 32-byte ovk". -/
structure FullViewingKey (P : Prims) where
  ak : P.Point
  nk : P.Point
  ovk : List Nat

namespace ExpandedSpendingKey

/-- Modelled from the spec: `ExpandedSpendingKey::from_spending_key` of
`keys.rs` — "derive (ask, nsk, ovk) from the spend seed via the external
expanded-spending-key derivation", each component obtained from the keyed
expansion primitive with a distinct one-byte domain tag and the scalars
reduced from a 64-byte wide output. -/
def from_spending_key (P : Prims) (sk : List Nat) : ExpandedSpendingKey :=
  { ask := fromBytesWide (prfExpand P sk [0x00])
    nsk := fromBytesWide (prfExpand P sk [0x01])
    ovk := (prfExpand P sk [0x02]).take 32 }

/-- Modelled from the spec: `ExpandedSpendingKey::to_bytes` of `keys.rs` —
the canonical 96-byte encoding `ask (32, LE) | nsk (32, LE) | ovk (32)`. -/
def to_bytes (e : ExpandedSpendingKey) : List Nat :=
  scalarBytes e.ask ++ (scalarBytes e.nsk ++ e.ovk)

end ExpandedSpendingKey

namespace FullViewingKey

/-- Modelled from the spec: `FullViewingKey::from_expanded_spending_key`
of `keys.rs` — `ak = G₁·ask`, `nk = G₂·nsk`, same `ovk`. -/
def from_expanded_spending_key (P : Prims) (e : ExpandedSpendingKey) :
    FullViewingKey P :=
  { ak := P.g1mul e.ask, nk := P.g2mul e.nsk, ovk := e.ovk }

/-- Modelled from the spec: `FullViewingKey::to_bytes` of `keys.rs` — the
canonical 96-byte encoding `ak (32) | nk (32) | ovk (32)` using the
external point encoding. -/
def to_bytes (P : Prims) (f : FullViewingKey P) : List Nat :=
  P.ptBytes f.ak ++ (P.ptBytes f.nk ++ f.ovk)

end FullViewingKey

/-- `derive_child_ovk`: the child outgoing-viewing key is a truncated
expansion of `(i_l, parent ovk)` under domain tag `0x15`. -/
def derive_child_ovk (P : Prims) (parent : List Nat) (i_l : List Nat) : List Nat :=
  (P.prfExpandVec i_l [[0x15], parent]).take 32

/-- `FvkFingerprint::from(&fvk)`: 32-byte personalized BLAKE2b hash of the
viewing key's canonical encoding. -/
def fvkFingerprint (P : Prims) (f : FullViewingKey P) : List Nat :=
  P.blake2b ZIP32_SAPLING_FVFP_PERSONALIZATION (FullViewingKey.to_bytes P f) 32

/-- `FvkFingerprint::tag`: the first 4 bytes of the fingerprint. -/
def fvkTag (P : Prims) (f : FullViewingKey P) : List Nat :=
  (fvkFingerprint P f).take 4

/-- `FvkTag::master()`: the all-zero sentinel tag. -/
def masterTag : List Nat := List.replicate 4 0

/-! ## Diversifier keys, the FF1 cipher wrappers, and the search -/

namespace DiversifierKey

/-- `DiversifierKey::master`. -/
def master (P : Prims) (sk_m : List Nat) : List Nat :=
  (prfExpand P sk_m [0x10]).take 32

/-- `DiversifierKey::derive_child`. -/
def derive_child (P : Prims) (dk i_l : List Nat) : List Nat :=
  (P.prfExpandVec i_l [[0x16], dk]).take 32

/-- `DiversifierKey::diversifier` (via `try_diversifier_internal`):
encrypt the index and keep the result only if the external curve-validity
test accepts it. -/
def diversifier (P : Prims) (dk : List Nat) (j : DiversifierIndex) :
    Option (List Nat) :=
  let d := P.fpeEncrypt dk j
  if P.validDiversifier d then some d else none

/-- `DiversifierKey::diversifier_index`: decrypt a diversifier back to its
index.  Total: every 11-byte string decrypts to some index. -/
def diversifier_index (P : Prims) (dk d : List Nat) : DiversifierIndex :=
  P.fpeDecrypt dk d

/-- The scan loop of `find_diversifier`, with explicit fuel.  The Rust
loop needs at most `2^88` probes because each failed probe increments the
11-byte counter and the increment fails at the all-`0xFF` maximum; the
fuel argument makes that termination bound explicit.  The zero-fuel branch
still makes its final probe, and is unreachable from wellformed indices
when started with fuel `2^88`. -/
def findDivLoop (P : Prims) (dk : List Nat) :
    Nat → DiversifierIndex → Option (DiversifierIndex × List Nat)
  | 0, j => (diversifier P dk j).map (fun d => (j, d))
  | fuel + 1, j =>
    match diversifier P dk j with
    | some d => some (j, d)
    | none =>
      let r := incBytes j
      if r.2 then findDivLoop P dk fuel r.1 else none

/-- `DiversifierKey::find_diversifier`: first index at or above `j` whose
encryption is a valid diversifier, or `None` on exhaustion. -/
def find_diversifier (P : Prims) (dk : List Nat) (j : DiversifierIndex) :
    Option (DiversifierIndex × List Nat) :=
  findDivLoop P dk (2 ^ 88) j

end DiversifierKey

/-- `sapling_address`. -/
def sapling_address (P : Prims) (fvk : FullViewingKey P) (dk : List Nat)
    (j : DiversifierIndex) : Option (List Nat) :=
  (DiversifierKey.diversifier P dk j).bind
    (fun d => P.toPaymentAddress fvk.ak fvk.nk d)

/-- `sapling_find_address`. -/
def sapling_find_address (P : Prims) (fvk : FullViewingKey P) (dk : List Nat)
    (j : DiversifierIndex) : Option (DiversifierIndex × List Nat) :=
  match DiversifierKey.find_diversifier P dk j with
  | none => none
  | some (j', d) => (P.toPaymentAddress fvk.ak fvk.nk d).map (fun a => (j', a))

/-- `sapling_default_address`: searches from index 0 and `unwrap`s the
result.  The `none` case of this model corresponds to the `unwrap` panic
in the source — on exhaustion the Rust function terminates the process
instead of returning. -/
def sapling_default_address (P : Prims) (fvk : FullViewingKey P)
    (dk : List Nat) : Option (DiversifierIndex × List Nat) :=
  sapling_find_address P fvk dk (List.replicate 11 0)

/-- `sapling_derive_internal_fvk`. -/
def sapling_derive_internal_fvk (P : Prims) (fvk : FullViewingKey P)
    (dk : List Nat) : FullViewingKey P × List Nat :=
  let i := P.blake2b ZIP32_SAPLING_INT_PERSONALIZATION
    (FullViewingKey.to_bytes P fvk ++ dk) 32
  let i_nsk := fromBytesWide (prfExpand P i [0x17])
  let r := prfExpand P i [0x18]
  (⟨fvk.ak, P.padd (P.g2mul i_nsk) fvk.nk, r.drop 32⟩, r.take 32)

/-! ## Extended keys -/

/-- `ExtendedSpendingKey`: one tree node with spend authority. -/
structure ExtendedSpendingKey where
  depth : Nat
  parent_fvk_tag : List Nat
  child_index : ChildIndex
  chain_code : List Nat
  expsk : ExpandedSpendingKey
  dk : List Nat
deriving DecidableEq

/-- `ExtendedFullViewingKey`: one tree node with view-only authority. -/
structure ExtendedFullViewingKey (P : Prims) where
  depth : Nat
  parent_fvk_tag : List Nat
  child_index : ChildIndex
  chain_code : List Nat
  fvk : FullViewingKey P
  dk : List Nat

namespace ExtendedSpendingKey

/-- `ExtendedSpendingKey::master`. -/
def master (P : Prims) (seed : List Nat) : ExtendedSpendingKey :=
  let i := P.blake2b ZIP32_SAPLING_MASTER_PERSONALIZATION seed 64
  let sk_m := i.take 32
  let c_m := i.drop 32
  { depth := 0
    parent_fvk_tag := masterTag
    child_index := ChildIndex.master
    chain_code := c_m
    expsk := ExpandedSpendingKey.from_spending_key P sk_m
    dk := DiversifierKey.master P sk_m }

/-- `ExtendedSpendingKey::derive_child`.  Total: derivation from a
spending key never fails, for hardened and non-hardened indices alike.
`u8` depth and `u32` index arithmetic wrap as in release builds. -/
def derive_child (P : Prims) (xsk : ExtendedSpendingKey) (i : ChildIndex) :
    ExtendedSpendingKey :=
  let fvk := FullViewingKey.from_expanded_spending_key P xsk.expsk
  let tmp := match i with
    | .Hardened n =>
      P.prfExpandVec xsk.chain_code
        [[0x11], xsk.expsk.to_bytes, xsk.dk,
          natLeBytes (ChildIndex.value (.Hardened n)) 4]
    | .NonHardened n =>
      P.prfExpandVec xsk.chain_code
        [[0x12], FullViewingKey.to_bytes P fvk, xsk.dk,
          natLeBytes (ChildIndex.value (.NonHardened n)) 4]
  let i_l := tmp.take 32
  { depth := (xsk.depth + 1) % 256
    parent_fvk_tag := fvkTag P fvk
    child_index := i
    chain_code := tmp.drop 32
    expsk :=
      { ask := fromBytesWide (prfExpand P i_l [0x13]) + xsk.expsk.ask
        nsk := fromBytesWide (prfExpand P i_l [0x14]) + xsk.expsk.nsk
        ovk := derive_child_ovk P xsk.expsk.ovk i_l }
    dk := DiversifierKey.derive_child P xsk.dk i_l }

/-- `ExtendedSpendingKey::from_path`: the loop
`for &i in path { xsk = xsk.derive_child(i) }`. -/
def from_path (P : Prims) (master : ExtendedSpendingKey)
    (path : List ChildIndex) : ExtendedSpendingKey :=
  match path with
  | [] => master
  | i :: rest => from_path P (derive_child P master i) rest

/-- `ExtendedSpendingKey::derive_internal`. -/
def derive_internal (P : Prims) (xsk : ExtendedSpendingKey) :
    ExtendedSpendingKey :=
  let fvk := FullViewingKey.from_expanded_spending_key P xsk.expsk
  let i := P.blake2b ZIP32_SAPLING_INT_PERSONALIZATION
    (FullViewingKey.to_bytes P fvk ++ xsk.dk) 32
  let i_nsk := fromBytesWide (prfExpand P i [0x17])
  let r := prfExpand P i [0x18]
  { depth := xsk.depth
    parent_fvk_tag := xsk.parent_fvk_tag
    child_index := xsk.child_index
    chain_code := xsk.chain_code
    expsk :=
      { ask := xsk.expsk.ask
        nsk := i_nsk + xsk.expsk.nsk
        ovk := r.drop 32 }
    dk := r.take 32 }

end ExtendedSpendingKey

namespace ExtendedFullViewingKey

/-- `ExtendedFullViewingKey::from(&xsk)`: the one-way projection. -/
def ofXsk (P : Prims) (xsk : ExtendedSpendingKey) : ExtendedFullViewingKey P :=
  { depth := xsk.depth
    parent_fvk_tag := xsk.parent_fvk_tag
    child_index := xsk.child_index
    chain_code := xsk.chain_code
    fvk := FullViewingKey.from_expanded_spending_key P xsk.expsk
    dk := xsk.dk }

/-- `ExtendedFullViewingKey::derive_child`: hardened derivation fails with
the capability error `Err(())`; non-hardened derivation updates the curve
points by fixed-base multiplication and addition. -/
def derive_child (P : Prims) (xfvk : ExtendedFullViewingKey P)
    (i : ChildIndex) : Except Unit (ExtendedFullViewingKey P) :=
  match i with
  | .Hardened _ => .error ()
  | .NonHardened n =>
    let tmp := P.prfExpandVec xfvk.chain_code
      [[0x12], FullViewingKey.to_bytes P xfvk.fvk, xfvk.dk,
        natLeBytes (ChildIndex.value (.NonHardened n)) 4]
    let i_l := tmp.take 32
    .ok
      { depth := (xfvk.depth + 1) % 256
        parent_fvk_tag := fvkTag P xfvk.fvk
        child_index := .NonHardened n
        chain_code := tmp.drop 32
        fvk :=
          { ak := P.padd (P.g1mul (fromBytesWide (prfExpand P i_l [0x13]))) xfvk.fvk.ak
            nk := P.padd (P.g2mul (fromBytesWide (prfExpand P i_l [0x14]))) xfvk.fvk.nk
            ovk := derive_child_ovk P xfvk.fvk.ovk i_l }
        dk := DiversifierKey.derive_child P xfvk.dk i_l }

/-- `ExtendedFullViewingKey::derive_internal`. -/
def derive_internal (P : Prims) (xfvk : ExtendedFullViewingKey P) :
    ExtendedFullViewingKey P :=
  let r := sapling_derive_internal_fvk P xfvk.fvk xfvk.dk
  { depth := xfvk.depth
    parent_fvk_tag := xfvk.parent_fvk_tag
    child_index := xfvk.child_index
    chain_code := xfvk.chain_code
    fvk := r.1
    dk := r.2 }

end ExtendedFullViewingKey

/-! ## Serialization

Readers consume a byte list and return the parsed value together with the
remaining bytes; `none` models an `io::Error` (EOF on a short input, or a
data-validity failure from scalar/point decoding). -/

/-- `read_exact` on a byte stream: `n` bytes or EOF error. -/
def takeExact (n : Nat) (bs : List Nat) : Option (List Nat × List Nat) :=
  if n ≤ bs.length then some (bs.take n, bs.drop n) else none

/-- Parse a canonical 32-byte scalar; fails on a non-canonical encoding
(value not below the group order).  Modelled from the spec: the scalar
deserialization inside `ExpandedSpendingKey::read` of `keys.rs`. -/
def scalarRead (bs : List Nat) : Option (Scalar × List Nat) :=
  (takeExact 32 bs).bind fun r =>
    if leNat r.1 < qOrder then some ((leNat r.1 : Scalar), r.2) else none

namespace ExpandedSpendingKey

/-- Modelled from the spec: `ExpandedSpendingKey::read` of `keys.rs` —
parse `ask | nsk | ovk`, validating the scalars. -/
def read (bs : List Nat) : Option (ExpandedSpendingKey × List Nat) :=
  (scalarRead bs).bind fun ra =>
  (scalarRead ra.2).bind fun rn =>
  (takeExact 32 rn.2).map fun ro =>
  ({ ask := ra.1, nsk := rn.1, ovk := ro.1 }, ro.2)

end ExpandedSpendingKey

namespace FullViewingKey

/-- Modelled from the spec: `FullViewingKey::read` of `keys.rs` — parse
`ak | nk | ovk`, validating the point encodings via the external
decoder. -/
def read (P : Prims) (bs : List Nat) : Option (FullViewingKey P × List Nat) :=
  (takeExact 32 bs).bind fun ra =>
  (P.ptParse ra.1).bind fun ak =>
  (takeExact 32 ra.2).bind fun rn =>
  (P.ptParse rn.1).bind fun nk =>
  (takeExact 32 rn.2).map fun ro =>
  ({ ak := ak, nk := nk, ovk := ro.1 }, ro.2)

end FullViewingKey

namespace ExtendedSpendingKey

/-- `ExtendedSpendingKey::write`. -/
def write (k : ExtendedSpendingKey) : List Nat :=
  [k.depth % 256] ++ k.parent_fvk_tag ++ natLeBytes k.child_index.value 4 ++
    k.chain_code ++ k.expsk.to_bytes ++ k.dk

/-- `ExtendedSpendingKey::read`. -/
def read (bs : List Nat) : Option (ExtendedSpendingKey × List Nat) :=
  (takeExact 1 bs).bind fun rd =>
  (takeExact 4 rd.2).bind fun rt =>
  (takeExact 4 rt.2).bind fun ri =>
  (takeExact 32 ri.2).bind fun rc =>
  (ExpandedSpendingKey.read rc.2).bind fun re =>
  (takeExact 32 re.2).map fun rk =>
  ({ depth := rd.1.headD 0
     parent_fvk_tag := rt.1
     child_index := ChildIndex.from_index (leNat ri.1)
     chain_code := rc.1
     expsk := re.1
     dk := rk.1 }, rk.2)

end ExtendedSpendingKey

namespace ExtendedFullViewingKey

/-- `ExtendedFullViewingKey::write`. -/
def write (P : Prims) (k : ExtendedFullViewingKey P) : List Nat :=
  [k.depth % 256] ++ k.parent_fvk_tag ++ natLeBytes k.child_index.value 4 ++
    k.chain_code ++ FullViewingKey.to_bytes P k.fvk ++ k.dk

/-- `ExtendedFullViewingKey::read`. -/
def read (P : Prims) (bs : List Nat) : Option (ExtendedFullViewingKey P × List Nat) :=
  (takeExact 1 bs).bind fun rd =>
  (takeExact 4 rd.2).bind fun rt =>
  (takeExact 4 rt.2).bind fun ri =>
  (takeExact 32 ri.2).bind fun rc =>
  (FullViewingKey.read P rc.2).bind fun rf =>
  (takeExact 32 rf.2).map fun rk =>
  ({ depth := rd.1.headD 0
     parent_fvk_tag := rt.1
     child_index := ChildIndex.from_index (leNat ri.1)
     chain_code := rc.1
     fvk := rf.1
     dk := rk.1 }, rk.2)

end ExtendedFullViewingKey

/-! ## Wellformedness and reachability -/

/-- The invariants that every Rust-representable extended spending key
enjoys from its fixed-width buffer types (`u8` depth, 4-byte tag, 32-byte
buffers) and which master generation and derivation maintain. -/
def WfXsk (k : ExtendedSpendingKey) : Prop :=
  k.depth < 256 ∧ k.parent_fvk_tag.length = 4 ∧ CanonicalIndex k.child_index ∧
  k.chain_code.length = 32 ∧ k.expsk.ovk.length = 32 ∧ k.dk.length = 32

/-- The corresponding invariants for an extended full viewing key. -/
def WfXfvk (P : Prims) (k : ExtendedFullViewingKey P) : Prop :=
  k.depth < 256 ∧ k.parent_fvk_tag.length = 4 ∧ CanonicalIndex k.child_index ∧
  k.chain_code.length = 32 ∧ k.fvk.ovk.length = 32 ∧ k.dk.length = 32

/-- Extended spending keys reachable through the API: master generation
from any seed followed by any sequence of `derive_child` steps with
in-range (`< 2^31`) raw indices. -/
inductive ReachableXsk (P : Prims) : ExtendedSpendingKey → Prop
  | master (seed : List Nat) : ReachableXsk P (ExtendedSpendingKey.master P seed)
  | child (k : ExtendedSpendingKey) (i : ChildIndex) :
      ReachableXsk P k → CanonicalIndex i →
      ReachableXsk P (ExtendedSpendingKey.derive_child P k i)

/-- Extended full viewing keys reachable through the API: projection of a
reachable spending key, or non-hardened derivation from a reachable
viewing key. -/
inductive ReachableXfvk (P : Prims) : ExtendedFullViewingKey P → Prop
  | ofXsk (k : ExtendedSpendingKey) :
      ReachableXsk P k → ReachableXfvk P (ExtendedFullViewingKey.ofXsk P k)
  | child (f f' : ExtendedFullViewingKey P) (n : Nat) :
      ReachableXfvk P f → n < 2 ^ 31 →
      ExtendedFullViewingKey.derive_child P f (.NonHardened n) = .ok f' →
      ReachableXfvk P f'

/-! ## Concrete primitive instantiations

Simple instantiations of the external collaborators, used to evaluate the
theorems on concrete inputs: the curve is collapsed to the trivial group
(on which every homomorphism contract holds), the hashes are constant, and
the format-preserving cipher is the identity permutation. -/

/-- Primitives with the trivial point group, constant hashes, the identity
cipher, and a validity test that accepts every diversifier. -/
def unitPrims : Prims where
  Point := Unit
  prfExpandVec := fun _ _ => List.replicate 64 0
  blake2b := fun _ _ n => List.replicate n 0
  padd := fun _ _ => ()
  g1mul := fun _ => ()
  g2mul := fun _ => ()
  ptBytes := fun _ => List.replicate 32 0
  ptParse := fun _ => some ()
  fpeEncrypt := fun _ j => j
  fpeDecrypt := fun _ d => d
  validDiversifier := fun _ => true
  toPaymentAddress := fun _ _ d => some d

/-- Like `unitPrims`, but the validity test rejects every diversifier, so
every diversifier search exhausts its range. -/
def noDivPrims : Prims where
  Point := Unit
  prfExpandVec := fun _ _ => List.replicate 64 0
  blake2b := fun _ _ n => List.replicate n 0
  padd := fun _ _ => ()
  g1mul := fun _ => ()
  g2mul := fun _ => ()
  ptBytes := fun _ => List.replicate 32 0
  ptParse := fun _ => some ()
  fpeEncrypt := fun _ j => j
  fpeDecrypt := fun _ d => d
  validDiversifier := fun _ => false
  toPaymentAddress := fun _ _ d => some d

/-- A concrete full viewing key over `noDivPrims`. -/
def noDivFvk : FullViewingKey noDivPrims :=
  { ak := (), nk := (), ovk := List.replicate 32 0 }

/-! ## Lemma development -/

theorem natLeBytes_length (n len : Nat) : (natLeBytes n len).length = len := by
  induction len generalizing n with
  | zero => rfl
  | succ k ih => simp [natLeBytes, ih]

theorem natLeBytes_wf (n len : Nat) : BytesWf (natLeBytes n len) := by
  induction len generalizing n with
  | zero => intro b hb; simp [natLeBytes] at hb
  | succ k ih =>
    intro b hb
    simp only [natLeBytes, List.mem_cons] at hb
    rcases hb with h | h
    · omega
    · exact ih _ _ h

theorem leNat_natLeBytes (n len : Nat) :
    leNat (natLeBytes n len) = n % 256 ^ len := by
  induction len generalizing n with
  | zero => simp [natLeBytes, leNat, Nat.mod_one]
  | succ k ih =>
    simp only [natLeBytes, leNat, ih]
    have h : (256 : Nat) ^ (k + 1) = 256 * 256 ^ k := by
      rw [pow_succ, Nat.mul_comm]
    rw [h, Nat.mod_mul]

theorem leNat_lt (bs : List Nat) (h : BytesWf bs) :
    leNat bs < 256 ^ bs.length := by
  induction bs with
  | nil => simp [leNat]
  | cons b rest ih =>
    have hb : b < 256 := h b (List.mem_cons_self b rest)
    have hr : leNat rest < 256 ^ rest.length :=
      ih (fun x hx => h x (List.mem_cons_of_mem b hx))
    simp only [leNat, List.length_cons, pow_succ]
    calc b + 256 * leNat rest < 256 + 256 * leNat rest := by omega
    _ = 256 * (leNat rest + 1) := by ring
    _ ≤ 256 * 256 ^ rest.length := by
        exact Nat.mul_le_mul_left 256 hr
    _ = 256 ^ rest.length * 256 := by ring

/-- Two wellformed byte strings of the same length with the same
little-endian value are equal. -/
theorem leNat_inj (bs cs : List Nat) (hlen : bs.length = cs.length)
    (hb : BytesWf bs) (hc : BytesWf cs) (h : leNat bs = leNat cs) : bs = cs := by
  induction bs generalizing cs with
  | nil =>
    cases cs with
    | nil => rfl
    | cons c cr => simp at hlen
  | cons b br ih =>
    cases cs with
    | nil => simp at hlen
    | cons c cr =>
      have hb0 : b < 256 := hb b (List.mem_cons_self b br)
      have hc0 : c < 256 := hc c (List.mem_cons_self c cr)
      simp only [leNat] at h
      have hbc : b = c := by omega
      subst hbc
      have hr : leNat br = leNat cr := by omega
      have : br = cr := by
        refine ih cr ?_ ?_ ?_ hr
        · simpa using hlen
        · exact fun x hx => hb x (List.mem_cons_of_mem b hx)
        · exact fun x hx => hc x (List.mem_cons_of_mem b hx)
      rw [this]

theorem incBytes_length (bs : List Nat) : (incBytes bs).1.length = bs.length := by
  induction bs with
  | nil => rfl
  | cons b rest ih =>
    by_cases h : (b + 1) % 256 = 0 <;> simp [incBytes, h, ih]

theorem incBytes_wf (bs : List Nat) (h : BytesWf bs) : BytesWf (incBytes bs).1 := by
  induction bs with
  | nil => exact h
  | cons b rest ih =>
    have hrest : BytesWf rest := fun x hx => h x (List.mem_cons_of_mem b hx)
    by_cases hb : (b + 1) % 256 = 0
    · intro x hx
      simp only [incBytes, hb, if_pos] at hx
      rcases List.mem_cons.mp hx with hx | hx
      · omega
      · exact ih hrest x hx
    · intro x hx
      simp only [incBytes, hb, if_neg, not_false_iff] at hx
      rcases List.mem_cons.mp hx with hx | hx
      · have : (b + 1) % 256 < 256 := Nat.mod_lt _ (by omega)
        omega
      · exact hrest x hx

/-- On success the increment adds one to the little-endian value. -/
theorem incBytes_succ (bs : List Nat) (h : BytesWf bs)
    (hs : (incBytes bs).2 = true) : leNat (incBytes bs).1 = leNat bs + 1 := by
  induction bs with
  | nil => simp [incBytes] at hs
  | cons b rest ih =>
    have hb : b < 256 := h b (List.mem_cons_self b rest)
    have hrest : BytesWf rest := fun x hx => h x (List.mem_cons_of_mem b hx)
    by_cases hw : (b + 1) % 256 = 0
    · -- the first byte wrapped: b = 255, carry into the rest
      have hb255 : b = 255 := by omega
      simp only [incBytes, hw, if_pos] at hs ⊢
      have := ih hrest hs
      simp only [leNat, this, hb255, hw]
      ring
    · have hlt : b + 1 < 256 := by
        rcases Nat.lt_or_ge (b + 1) 256 with h' | h'
        · exact h'
        · exfalso; have : b = 255 := by omega
          subst this; simp at hw
      simp only [incBytes, hw, if_neg, not_false_iff, leNat]
      have : (b + 1) % 256 = b + 1 := Nat.mod_eq_of_lt hlt
      rw [this]; ring

/-- The increment fails exactly on the all-`0xFF` index, and in that case
every byte has wrapped to zero. -/
theorem incBytes_fail (bs : List Nat) (h : BytesWf bs)
    (hf : (incBytes bs).2 = false) :
    bs = List.replicate bs.length 255 ∧
    (incBytes bs).1 = List.replicate bs.length 0 := by
  induction bs with
  | nil => simp [incBytes]
  | cons b rest ih =>
    have hb : b < 256 := h b (List.mem_cons_self b rest)
    have hrest : BytesWf rest := fun x hx => h x (List.mem_cons_of_mem b hx)
    by_cases hw : (b + 1) % 256 = 0
    · have hb255 : b = 255 := by omega
      simp only [incBytes, hw, if_pos] at hf ⊢
      obtain ⟨h1, h2⟩ := ih hrest hf
      subst hb255
      have hlen : (255 :: rest).length = rest.length + 1 := rfl
      rw [hlen, List.replicate_succ, List.replicate_succ]
      constructor
      · exact congrArg (List.cons 255) h1
      · exact congrArg (List.cons 0) h2
    · simp [incBytes, hw] at hf

/-- Conversely, a successful increment means the index was not at the
maximum. -/
theorem incBytes_ok_of_ne (bs : List Nat) (h : BytesWf bs)
    (hne : bs ≠ List.replicate bs.length 255) : (incBytes bs).2 = true := by
  by_contra hfail
  have hf : (incBytes bs).2 = false := by
    rcases hb : (incBytes bs).2 with _ | _
    · rfl
    · exact absurd hb hfail
  exact hne (incBytes_fail bs h hf).1

theorem from_index_value (i : ChildIndex) (h : CanonicalIndex i) :
    ChildIndex.from_index i.value = i := by
  cases i with
  | NonHardened n =>
    have hn : n < 2 ^ 31 := h
    have hm : n % 2 ^ 32 = n := Nat.mod_eq_of_lt (by omega)
    simp only [ChildIndex.value, ChildIndex.from_index, hm]
    rw [if_neg (by omega)]
  | Hardened n =>
    have hn : n < 2 ^ 31 := h
    have hm : (n + 2 ^ 31) % 2 ^ 32 = n + 2 ^ 31 := Nat.mod_eq_of_lt (by omega)
    simp only [ChildIndex.value, ChildIndex.from_index, hm]
    rw [if_pos (by omega)]
    simp

theorem takeExact_append (n : Nat) (xs rest : List Nat) (h : xs.length = n) :
    takeExact n (xs ++ rest) = some (xs, rest) := by
  subst h
  rw [takeExact, if_pos (by simp)]
  rw [List.take_left, List.drop_left]

theorem takeExact_some (n : Nat) (bs xs rest : List Nat)
    (h : takeExact n bs = some (xs, rest)) :
    n ≤ bs.length ∧ rest.length = bs.length - n := by
  by_cases hn : n ≤ bs.length
  · rw [takeExact, if_pos hn] at h
    obtain ⟨h1, h2⟩ := Prod.mk.injEq .. ▸ Option.some.injEq .. ▸ h
    refine ⟨hn, ?_⟩
    rw [← h2]
    simp
  · rw [takeExact, if_neg hn] at h
    exact absurd h (by simp)

theorem scalarRead_scalarBytes (s : Scalar) (rest : List Nat) :
    scalarRead (scalarBytes s ++ rest) = some (s, rest) := by
  rw [scalarRead, takeExact_append 32 (scalarBytes s) rest
    (by rw [scalarBytes]; exact natLeBytes_length _ _), Option.some_bind]
  have hval : leNat (scalarBytes s) = s.val := by
    rw [scalarBytes, leNat_natLeBytes]
    exact Nat.mod_eq_of_lt (lt_trans (ZMod.val_lt s) (by decide))
  rw [if_pos (by rw [hval]; exact ZMod.val_lt s)]
  rw [hval, ZMod.natCast_rightInverse s]

/-! ## Round-trip helper lemmas -/

theorem takeExact_all (xs : List Nat) (n : Nat) (h : xs.length = n) :
    takeExact n xs = some (xs, []) := by
  subst h
  rw [takeExact, if_pos (Nat.le_refl _)]
  simp

theorem expsk_read_append (e : ExpandedSpendingKey) (rest : List Nat)
    (hovk : e.ovk.length = 32) :
    ExpandedSpendingKey.read (e.to_bytes ++ rest) = some (e, rest) := by
  rw [ExpandedSpendingKey.to_bytes, ExpandedSpendingKey.read, List.append_assoc,
    scalarRead_scalarBytes, Option.some_bind, List.append_assoc,
    scalarRead_scalarBytes, Option.some_bind,
    takeExact_append 32 e.ovk rest hovk]
  rfl

theorem fvk_read_append (P : Prims) (f : FullViewingKey P) (rest : List Nat)
    (hlen : ∀ pt, (P.ptBytes pt).length = 32)
    (hparse : ∀ pt, P.ptParse (P.ptBytes pt) = some pt)
    (hovk : f.ovk.length = 32) :
    FullViewingKey.read P (FullViewingKey.to_bytes P f ++ rest) = some (f, rest) := by
  rw [FullViewingKey.to_bytes, FullViewingKey.read, List.append_assoc,
    takeExact_append 32 (P.ptBytes f.ak) _ (hlen f.ak), Option.some_bind,
    hparse f.ak, Option.some_bind, List.append_assoc,
    takeExact_append 32 (P.ptBytes f.nk) _ (hlen f.nk), Option.some_bind,
    hparse f.nk, Option.some_bind, takeExact_append 32 f.ovk rest hovk]
  rfl

/-- `ExtendedSpendingKey::read` accepts any correctly framed field values:
it performs no consistency validation between depth, parent tag and child
index. -/
theorem xsk_read_fields (d : Nat) (tag ib chain : List Nat)
    (e : ExpandedSpendingKey) (dk rest : List Nat)
    (htag : tag.length = 4) (hib : ib.length = 4) (hchain : chain.length = 32)
    (hovk : e.ovk.length = 32) (hdk : dk.length = 32) :
    ExtendedSpendingKey.read
      ([d] ++ tag ++ ib ++ chain ++ e.to_bytes ++ dk ++ rest) =
    some ({ depth := d
            parent_fvk_tag := tag
            child_index := ChildIndex.from_index (leNat ib)
            chain_code := chain
            expsk := e
            dk := dk }, rest) := by
  simp only [List.append_assoc]
  rw [ExtendedSpendingKey.read,
    takeExact_append 1 [d] _ rfl, Option.some_bind,
    takeExact_append 4 tag _ htag, Option.some_bind,
    takeExact_append 4 ib _ hib, Option.some_bind,
    takeExact_append 32 chain _ hchain, Option.some_bind,
    expsk_read_append e _ hovk, Option.some_bind,
    takeExact_append 32 dk rest hdk]
  rfl

/-- `ExtendedFullViewingKey::read` likewise accepts any correctly framed
field values without consistency validation. -/
theorem xfvk_read_fields (P : Prims) (d : Nat) (tag ib chain : List Nat)
    (f : FullViewingKey P) (dk rest : List Nat)
    (hlen : ∀ pt, (P.ptBytes pt).length = 32)
    (hparse : ∀ pt, P.ptParse (P.ptBytes pt) = some pt)
    (htag : tag.length = 4) (hib : ib.length = 4) (hchain : chain.length = 32)
    (hovk : f.ovk.length = 32) (hdk : dk.length = 32) :
    ExtendedFullViewingKey.read P
      ([d] ++ tag ++ ib ++ chain ++ FullViewingKey.to_bytes P f ++ dk ++ rest) =
    some ({ depth := d
            parent_fvk_tag := tag
            child_index := ChildIndex.from_index (leNat ib)
            chain_code := chain
            fvk := f
            dk := dk }, rest) := by
  simp only [List.append_assoc]
  rw [ExtendedFullViewingKey.read,
    takeExact_append 1 [d] _ rfl, Option.some_bind,
    takeExact_append 4 tag _ htag, Option.some_bind,
    takeExact_append 4 ib _ hib, Option.some_bind,
    takeExact_append 32 chain _ hchain, Option.some_bind,
    fvk_read_append P f _ hlen hparse hovk, Option.some_bind,
    takeExact_append 32 dk rest hdk]
  rfl

theorem wf_master (P : Prims) (hP : PrimsOk P) (seed : List Nat) :
    WfXsk (ExtendedSpendingKey.master P seed) := by
  obtain ⟨hprf, hblake, -, -⟩ := hP
  refine ⟨show (0 : Nat) < 256 by decide,
    show masterTag.length = 4 by decide,
    show CanonicalIndex ChildIndex.master by decide, ?_, ?_, ?_⟩
  · simp [ExtendedSpendingKey.master, List.length_drop, hblake]
  · simp [ExtendedSpendingKey.master, ExpandedSpendingKey.from_spending_key,
      prfExpand, List.length_take, hprf]
  · simp [ExtendedSpendingKey.master, DiversifierKey.master, prfExpand,
      List.length_take, hprf]

theorem wf_derive_child (P : Prims) (hP : PrimsOk P) (k : ExtendedSpendingKey)
    (i : ChildIndex) (hi : CanonicalIndex i) :
    WfXsk (ExtendedSpendingKey.derive_child P k i) := by
  obtain ⟨hprf, hblake, -, -⟩ := hP
  cases i with
  | NonHardened n =>
    refine ⟨Nat.mod_lt _ (by omega), ?_, hi, ?_, ?_, ?_⟩
    · simp [ExtendedSpendingKey.derive_child, fvkTag, fvkFingerprint,
        List.length_take, hblake]
    · simp [ExtendedSpendingKey.derive_child, List.length_drop, hprf]
    · simp [ExtendedSpendingKey.derive_child, derive_child_ovk,
        List.length_take, hprf]
    · simp [ExtendedSpendingKey.derive_child, DiversifierKey.derive_child,
        List.length_take, hprf]
  | Hardened n =>
    refine ⟨Nat.mod_lt _ (by omega), ?_, hi, ?_, ?_, ?_⟩
    · simp [ExtendedSpendingKey.derive_child, fvkTag, fvkFingerprint,
        List.length_take, hblake]
    · simp [ExtendedSpendingKey.derive_child, List.length_drop, hprf]
    · simp [ExtendedSpendingKey.derive_child, derive_child_ovk,
        List.length_take, hprf]
    · simp [ExtendedSpendingKey.derive_child, DiversifierKey.derive_child,
        List.length_take, hprf]

theorem wf_reachable_xsk (P : Prims) (hP : PrimsOk P) (k : ExtendedSpendingKey)
    (hk : ReachableXsk P k) : WfXsk k := by
  induction hk with
  | master seed => exact wf_master P hP seed
  | child k i _ hi _ => exact wf_derive_child P hP k i hi

theorem wf_xfvk_ofXsk (P : Prims) (k : ExtendedSpendingKey) (hk : WfXsk k) :
    WfXfvk P (ExtendedFullViewingKey.ofXsk P k) := by
  obtain ⟨h1, h2, h3, h4, h5, h6⟩ := hk
  exact ⟨h1, h2, h3, h4, h5, h6⟩

theorem wf_xfvk_derive_child (P : Prims) (hP : PrimsOk P)
    (f f' : ExtendedFullViewingKey P) (n : Nat) (hn : n < 2 ^ 31)
    (h : ExtendedFullViewingKey.derive_child P f (.NonHardened n) = .ok f') :
    WfXfvk P f' := by
  obtain ⟨hprf, hblake, -, -⟩ := hP
  rw [ExtendedFullViewingKey.derive_child] at h
  obtain rfl := (Except.ok.injEq .. ▸ h).symm
  refine ⟨Nat.mod_lt _ (by omega), ?_, hn, ?_, ?_, ?_⟩
  · simp [fvkTag, fvkFingerprint, List.length_take, hblake]
  · simp [List.length_drop, hprf]
  · simp [derive_child_ovk, List.length_take, hprf]
  · simp [DiversifierKey.derive_child, List.length_take, hprf]

theorem wf_reachable_xfvk (P : Prims) (hP : PrimsOk P)
    (f : ExtendedFullViewingKey P) (hf : ReachableXfvk P f) : WfXfvk P f := by
  induction hf with
  | ofXsk k hk => exact wf_xfvk_ofXsk P k (wf_reachable_xsk P hP k hk)
  | child f f' n _ hn h _ => exact wf_xfvk_derive_child P hP f f' n hn h

/-! ## Search invariants for `find_diversifier` -/

theorem idxWf_lt (j : DiversifierIndex) (h : IdxWf j) : leNat j < 2 ^ 88 := by
  have hb := leNat_lt j h.2
  rw [h.1] at hb
  have h11 : (256 : Nat) ^ 11 = 2 ^ 88 := by norm_num
  rw [h11] at hb
  exact hb

theorem leNat_max11 : leNat (List.replicate 11 255) = 2 ^ 88 - 1 := by decide

theorem idx_eq_of_leNat_eq (j k : DiversifierIndex) (hj : IdxWf j)
    (hk : IdxWf k) (h : leNat j = leNat k) : j = k :=
  leNat_inj j k (hj.1.trans hk.1.symm) hj.2 hk.2 h

theorem idxWf_incBytes (j : DiversifierIndex) (h : IdxWf j)
    (hs : (incBytes j).2 = true) :
    IdxWf (incBytes j).1 ∧ leNat (incBytes j).1 = leNat j + 1 :=
  ⟨⟨(incBytes_length j).trans h.1, incBytes_wf j h.2⟩, incBytes_succ j h.2 hs⟩

theorem incBytes_fail_max11 (j : DiversifierIndex) (h : IdxWf j)
    (hf : (incBytes j).2 = false) : j = List.replicate 11 255 := by
  have := (incBytes_fail j h.2 hf).1
  rw [h.1] at this
  exact this

/-- The loop invariant of `find_diversifier`: given enough fuel (which the
`2^88` starting fuel always provides for wellformed indices), a `some`
result is the first valid index at or above the start, and a `none` result
means every index from the start up to and including the maximum is
invalid. -/
theorem findDivLoop_spec (P : Prims) (dk : List Nat) :
    ∀ (fuel : Nat) (j : DiversifierIndex), IdxWf j →
    2 ^ 88 - 1 - leNat j ≤ fuel →
    ((∀ j' d, DiversifierKey.findDivLoop P dk fuel j = some (j', d) →
        IdxWf j' ∧ leNat j ≤ leNat j' ∧
        DiversifierKey.diversifier P dk j' = some d ∧
        ∀ k, IdxWf k → leNat j ≤ leNat k → leNat k < leNat j' →
          DiversifierKey.diversifier P dk k = none) ∧
     (DiversifierKey.findDivLoop P dk fuel j = none →
        ∀ k, IdxWf k → leNat j ≤ leNat k →
          DiversifierKey.diversifier P dk k = none)) := by
  intro fuel
  induction fuel with
  | zero =>
    intro j hj hfuel
    have hjlt := idxWf_lt j hj
    have hjmax : leNat j = 2 ^ 88 - 1 := by omega
    constructor
    · intro j' d hsome
      rw [DiversifierKey.findDivLoop] at hsome
      cases hD : DiversifierKey.diversifier P dk j with
      | none => rw [hD] at hsome; exact absurd hsome (by simp)
      | some d0 =>
        rw [hD] at hsome
        simp only [Option.map_some'] at hsome
        obtain ⟨h1, h2⟩ := Prod.mk.injEq .. ▸ Option.some.injEq .. ▸ hsome
        subst h1; subst h2
        exact ⟨hj, Nat.le_refl _, hD, fun k _ hk1 hk2 => absurd hk2 (by omega)⟩
    · intro hnone k hk hk1
      have hklt := idxWf_lt k hk
      have hkj : leNat k = leNat j := by omega
      rw [idx_eq_of_leNat_eq k j hk hj hkj]
      rw [DiversifierKey.findDivLoop] at hnone
      cases hD : DiversifierKey.diversifier P dk j with
      | none => rfl
      | some d0 => rw [hD] at hnone; exact absurd hnone (by simp)
  | succ fuel ih =>
    intro j hj hfuel
    cases hD : DiversifierKey.diversifier P dk j with
    | some d0 =>
      have hred : DiversifierKey.findDivLoop P dk (fuel + 1) j = some (j, d0) := by
        rw [DiversifierKey.findDivLoop, hD]
      constructor
      · intro j' d hsome
        rw [hred] at hsome
        obtain ⟨h1, h2⟩ := Prod.mk.injEq .. ▸ Option.some.injEq .. ▸ hsome
        subst h1; subst h2
        exact ⟨hj, Nat.le_refl _, hD, fun k _ hk1 hk2 => absurd hk2 (by omega)⟩
      · intro hnone
        rw [hred] at hnone
        exact absurd hnone (by simp)
    | none =>
      cases hI : (incBytes j).2 with
      | false =>
        have hred : DiversifierKey.findDivLoop P dk (fuel + 1) j = none := by
          rw [DiversifierKey.findDivLoop, hD]
          show (if (incBytes j).2 = true then
            DiversifierKey.findDivLoop P dk fuel (incBytes j).1 else none) = none
          rw [hI]
          simp
        have hjmax := incBytes_fail_max11 j hj hI
        constructor
        · intro j' d hsome
          rw [hred] at hsome
          exact absurd hsome (by simp)
        · intro _ k hk hk1
          have hklt := idxWf_lt k hk
          have hjv : leNat j = 2 ^ 88 - 1 := by rw [hjmax]; exact leNat_max11
          have hkj : leNat k = leNat j := by omega
          rw [idx_eq_of_leNat_eq k j hk hj hkj]
          exact hD
      | true =>
        have hred : DiversifierKey.findDivLoop P dk (fuel + 1) j =
            DiversifierKey.findDivLoop P dk fuel (incBytes j).1 := by
          rw [DiversifierKey.findDivLoop, hD]
          simp only [hI, if_true]
        obtain ⟨hwf2, hval2⟩ := idxWf_incBytes j hj hI
        have hlt2 := idxWf_lt (incBytes j).1 hwf2
        have hfuel2 : 2 ^ 88 - 1 - leNat (incBytes j).1 ≤ fuel := by omega
        obtain ⟨ihs, ihn⟩ := ih (incBytes j).1 hwf2 hfuel2
        constructor
        · intro j' d hsome
          rw [hred] at hsome
          obtain ⟨hwf', hle', hdiv', hgap'⟩ := ihs j' d hsome
          refine ⟨hwf', by omega, hdiv', ?_⟩
          intro k hk hk1 hk2
          rcases Nat.eq_or_lt_of_le hk1 with heq | hlt
          · rw [idx_eq_of_leNat_eq k j hk hj heq.symm]
            exact hD
          · exact hgap' k hk (by omega) hk2
        · intro hnone k hk hk1
          rw [hred] at hnone
          rcases Nat.eq_or_lt_of_le hk1 with heq | hlt
          · rw [idx_eq_of_leNat_eq k j hk hj heq.symm]
            exact hD
          · exact ihn hnone k hk (by omega)

/-! ## Consumed-length lemmas for the readers -/

theorem value_lt_exp (i : ChildIndex) : i.value < 2 ^ 32 := by
  cases i with
  | NonHardened n => exact Nat.mod_lt _ (by norm_num)
  | Hardened n => exact Nat.mod_lt _ (by norm_num)

theorem scalarRead_some (bs : List Nat) (s : Scalar) (rest : List Nat)
    (h : scalarRead bs = some (s, rest)) :
    32 ≤ bs.length ∧ rest.length = bs.length - 32 := by
  rw [scalarRead] at h
  rcases Option.bind_eq_some.mp h with ⟨r, hr, hif⟩
  by_cases hlt : leNat r.1 < qOrder
  · rw [if_pos hlt] at hif
    obtain ⟨h1, h2⟩ := Prod.mk.injEq .. ▸ Option.some.injEq .. ▸ hif
    obtain ⟨hle, hlen⟩ := takeExact_some 32 bs r.1 r.2 hr
    exact ⟨hle, by rw [← h2]; exact hlen⟩
  · rw [if_neg hlt] at hif
    exact absurd hif (by simp)

theorem expsk_read_some (bs : List Nat) (e : ExpandedSpendingKey)
    (rest : List Nat) (h : ExpandedSpendingKey.read bs = some (e, rest)) :
    96 ≤ bs.length ∧ rest.length = bs.length - 96 := by
  rw [ExpandedSpendingKey.read] at h
  rcases Option.bind_eq_some.mp h with ⟨ra, hra, h⟩
  rcases Option.bind_eq_some.mp h with ⟨rn, hrn, h⟩
  rcases Option.map_eq_some'.mp h with ⟨ro, hro, h⟩
  obtain ⟨ha1, ha2⟩ := scalarRead_some bs ra.1 ra.2 hra
  obtain ⟨hn1, hn2⟩ := scalarRead_some ra.2 rn.1 rn.2 hrn
  obtain ⟨ho1, ho2⟩ := takeExact_some 32 rn.2 ro.1 ro.2 hro
  have hrest : rest = ro.2 := by
    obtain ⟨-, h2⟩ := Prod.mk.injEq .. ▸ h
    exact h2.symm
  rw [hrest]
  omega

theorem fvk_read_some (P : Prims) (bs : List Nat) (f : FullViewingKey P)
    (rest : List Nat) (h : FullViewingKey.read P bs = some (f, rest)) :
    96 ≤ bs.length ∧ rest.length = bs.length - 96 := by
  rw [FullViewingKey.read] at h
  rcases Option.bind_eq_some.mp h with ⟨ra, hra, h⟩
  rcases Option.bind_eq_some.mp h with ⟨ak, -, h⟩
  rcases Option.bind_eq_some.mp h with ⟨rn, hrn, h⟩
  rcases Option.bind_eq_some.mp h with ⟨nk, -, h⟩
  rcases Option.map_eq_some'.mp h with ⟨ro, hro, h⟩
  obtain ⟨ha1, ha2⟩ := takeExact_some 32 bs ra.1 ra.2 hra
  obtain ⟨hn1, hn2⟩ := takeExact_some 32 ra.2 rn.1 rn.2 hrn
  obtain ⟨ho1, ho2⟩ := takeExact_some 32 rn.2 ro.1 ro.2 hro
  have hrest : rest = ro.2 := by
    obtain ⟨-, h2⟩ := Prod.mk.injEq .. ▸ h
    exact h2.symm
  rw [hrest]
  omega

theorem xsk_read_some (bs : List Nat) (k : ExtendedSpendingKey)
    (rest : List Nat) (h : ExtendedSpendingKey.read bs = some (k, rest)) :
    169 ≤ bs.length := by
  rw [ExtendedSpendingKey.read] at h
  rcases Option.bind_eq_some.mp h with ⟨rd, hrd, h⟩
  rcases Option.bind_eq_some.mp h with ⟨rt, hrt, h⟩
  rcases Option.bind_eq_some.mp h with ⟨ri, hri, h⟩
  rcases Option.bind_eq_some.mp h with ⟨rc, hrc, h⟩
  rcases Option.bind_eq_some.mp h with ⟨re, hre, h⟩
  rcases Option.map_eq_some'.mp h with ⟨rk, hrk, -⟩
  obtain ⟨h1, h1r⟩ := takeExact_some 1 bs rd.1 rd.2 hrd
  obtain ⟨h2, h2r⟩ := takeExact_some 4 rd.2 rt.1 rt.2 hrt
  obtain ⟨h3, h3r⟩ := takeExact_some 4 rt.2 ri.1 ri.2 hri
  obtain ⟨h4, h4r⟩ := takeExact_some 32 ri.2 rc.1 rc.2 hrc
  obtain ⟨h5, h5r⟩ := expsk_read_some rc.2 re.1 re.2 hre
  obtain ⟨h6, h6r⟩ := takeExact_some 32 re.2 rk.1 rk.2 hrk
  omega

theorem xfvk_read_some (P : Prims) (bs : List Nat)
    (k : ExtendedFullViewingKey P) (rest : List Nat)
    (h : ExtendedFullViewingKey.read P bs = some (k, rest)) :
    169 ≤ bs.length := by
  rw [ExtendedFullViewingKey.read] at h
  rcases Option.bind_eq_some.mp h with ⟨rd, hrd, h⟩
  rcases Option.bind_eq_some.mp h with ⟨rt, hrt, h⟩
  rcases Option.bind_eq_some.mp h with ⟨ri, hri, h⟩
  rcases Option.bind_eq_some.mp h with ⟨rc, hrc, h⟩
  rcases Option.bind_eq_some.mp h with ⟨rf, hrf, h⟩
  rcases Option.map_eq_some'.mp h with ⟨rk, hrk, -⟩
  obtain ⟨h1, h1r⟩ := takeExact_some 1 bs rd.1 rd.2 hrd
  obtain ⟨h2, h2r⟩ := takeExact_some 4 rd.2 rt.1 rt.2 hrt
  obtain ⟨h3, h3r⟩ := takeExact_some 4 rt.2 ri.1 ri.2 hri
  obtain ⟨h4, h4r⟩ := takeExact_some 32 ri.2 rc.1 rc.2 hrc
  obtain ⟨h5, h5r⟩ := fvk_read_some P rc.2 rf.1 rf.2 hrf
  obtain ⟨h6, h6r⟩ := takeExact_some 32 rf.2 rk.1 rk.2 hrk
  omega

/-! ## Round trips for wellformed keys -/

theorem xsk_write_read (k : ExtendedSpendingKey) (hk : WfXsk k) :
    ExtendedSpendingKey.read (ExtendedSpendingKey.write k) = some (k, []) := by
  obtain ⟨hdepth, htag, hidx, hchain, hovk, hdk⟩ := hk
  have h := xsk_read_fields (k.depth % 256) k.parent_fvk_tag
    (natLeBytes k.child_index.value 4) k.chain_code k.expsk k.dk []
    htag (natLeBytes_length _ _) hchain hovk hdk
  rw [List.append_nil] at h
  have hval : leNat (natLeBytes k.child_index.value 4) = k.child_index.value := by
    rw [leNat_natLeBytes]
    refine Nat.mod_eq_of_lt ?_
    have he : (256 : Nat) ^ 4 = 2 ^ 32 := by norm_num
    rw [he]
    exact value_lt_exp k.child_index
  rw [hval, from_index_value k.child_index hidx] at h
  rw [ExtendedSpendingKey.write]
  rw [Nat.mod_eq_of_lt hdepth] at h ⊢
  exact h

theorem xfvk_write_read (P : Prims)
    (hlen : ∀ pt, (P.ptBytes pt).length = 32)
    (hparse : ∀ pt, P.ptParse (P.ptBytes pt) = some pt)
    (f : ExtendedFullViewingKey P) (hf : WfXfvk P f) :
    ExtendedFullViewingKey.read P (ExtendedFullViewingKey.write P f) =
      some (f, []) := by
  obtain ⟨hdepth, htag, hidx, hchain, hovk, hdk⟩ := hf
  have h := xfvk_read_fields P (f.depth % 256) f.parent_fvk_tag
    (natLeBytes f.child_index.value 4) f.chain_code f.fvk f.dk []
    hlen hparse htag (natLeBytes_length _ _) hchain hovk hdk
  rw [List.append_nil] at h
  have hval : leNat (natLeBytes f.child_index.value 4) = f.child_index.value := by
    rw [leNat_natLeBytes]
    refine Nat.mod_eq_of_lt ?_
    have he : (256 : Nat) ^ 4 = 2 ^ 32 := by norm_num
    rw [he]
    exact value_lt_exp f.child_index
  rw [hval, from_index_value f.child_index hidx] at h
  rw [ExtendedFullViewingKey.write]
  rw [Nat.mod_eq_of_lt hdepth] at h ⊢
  exact h

/-! ## Exhausted searches -/

/-- When the validity test rejects everything, the search loop never
returns a result, whatever the fuel. -/
theorem findDivLoop_none_of_allInvalid (P : Prims)
    (hv : ∀ d, P.validDiversifier d = false) :
    ∀ (fuel : Nat) (dk : List Nat) (j : DiversifierIndex),
      DiversifierKey.findDivLoop P dk fuel j = none := by
  intro fuel
  have hdiv : ∀ dk j, DiversifierKey.diversifier P dk j = none := by
    intro dk j
    rw [DiversifierKey.diversifier]
    simp [hv]
  induction fuel with
  | zero =>
    intro dk j
    rw [DiversifierKey.findDivLoop, hdiv]
    rfl
  | succ fuel ih =>
    intro dk j
    rw [DiversifierKey.findDivLoop, hdiv]
    show (if (incBytes j).2 = true then
      DiversifierKey.findDivLoop P dk fuel (incBytes j).1 else none) = none
    by_cases hI : (incBytes j).2 = true
    · rw [if_pos hI]
      exact ih dk (incBytes j).1
    · rw [if_neg hI]

/-! ## The claims -/

/-- C1: Cross-path agreement.  For every extended spending key and every
non-hardened child index, projecting the spending-key child to a viewing
key equals deriving the child directly from the projected parent,
identically on every field (depth, parent tag, child index, chain code,
ak, nk, ovk, diversifier key), given the curve contract that fixed-base
scalar multiplication distributes over scalar addition.  Proved for all
extended spending keys, hence in particular for every key reachable from a
seed by master generation and derivation. -/
theorem c1_cross_path_agreement (P : Prims)
    (h1 : ∀ a b : Scalar, P.padd (P.g1mul a) (P.g1mul b) = P.g1mul (a + b))
    (h2 : ∀ a b : Scalar, P.padd (P.g2mul a) (P.g2mul b) = P.g2mul (a + b))
    (xsk : ExtendedSpendingKey) (n : Nat) :
    ExtendedFullViewingKey.derive_child P (ExtendedFullViewingKey.ofXsk P xsk)
      (.NonHardened n) =
    .ok (ExtendedFullViewingKey.ofXsk P
      (ExtendedSpendingKey.derive_child P xsk (.NonHardened n))) := by
  simp only [ExtendedFullViewingKey.derive_child, ExtendedFullViewingKey.ofXsk,
    ExtendedSpendingKey.derive_child, FullViewingKey.from_expanded_spending_key,
    h1, h2]

/-- C1 witness: the cross-path agreement evaluated at the master key of the
empty seed under the trivial-group primitives, child index 5. -/
theorem c1_witness :
    ExtendedFullViewingKey.derive_child unitPrims
      (ExtendedFullViewingKey.ofXsk unitPrims
        (ExtendedSpendingKey.master unitPrims [])) (.NonHardened 5) =
    .ok (ExtendedFullViewingKey.ofXsk unitPrims
      (ExtendedSpendingKey.derive_child unitPrims
        (ExtendedSpendingKey.master unitPrims []) (.NonHardened 5))) :=
  c1_cross_path_agreement unitPrims (fun a b => rfl) (fun a b => rfl) _ 5

/-- C2: Hardened exclusivity.  `ExtendedFullViewingKey::derive_child`
fails with the capability error on every hardened index, while
`ExtendedSpendingKey::derive_child` succeeds on every index — hardened or
not — returning a child whose index is the requested one and whose depth
is the parent's plus one. -/
theorem c2_hardened_exclusivity (P : Prims) :
    (∀ (xfvk : ExtendedFullViewingKey P) (n : Nat),
      ExtendedFullViewingKey.derive_child P xfvk (.Hardened n) = .error ()) ∧
    (∀ (xsk : ExtendedSpendingKey) (i : ChildIndex),
      ∃ child, ExtendedSpendingKey.derive_child P xsk i = child ∧
        child.child_index = i ∧ child.depth = (xsk.depth + 1) % 256) := by
  constructor
  · intro xfvk n
    rfl
  · intro xsk i
    refine ⟨ExtendedSpendingKey.derive_child P xsk i, rfl, ?_, ?_⟩ <;>
      cases i <;> rfl

/-- C3: Search correctness and monotonicity.  If `find_diversifier(j)`
returns `(j', d)` then `j' ≥ j`, `diversifier(j') = Some d`, and every
index in `[j, j')` is rejected; if it returns `None` then every index from
`j` up to and including the maximum (all bytes `0xFF`) is rejected.  The
scan walks the 11-byte counter via the byte-by-byte little-endian carry
of `increment`. -/
theorem c3_find_diversifier_search (P : Prims) (dk : List Nat)
    (j : DiversifierIndex) (hj : IdxWf j) :
    (∀ j' d, DiversifierKey.find_diversifier P dk j = some (j', d) →
        IdxWf j' ∧ leNat j ≤ leNat j' ∧
        DiversifierKey.diversifier P dk j' = some d ∧
        ∀ k, IdxWf k → leNat j ≤ leNat k → leNat k < leNat j' →
          DiversifierKey.diversifier P dk k = none) ∧
    (DiversifierKey.find_diversifier P dk j = none →
        ∀ k, IdxWf k → leNat j ≤ leNat k →
          DiversifierKey.diversifier P dk k = none) :=
  findDivLoop_spec P dk (2 ^ 88) j hj
    (Nat.le_trans (Nat.sub_le _ _) (Nat.sub_le _ _))

/-- C3 witness: the search applied at index 0 under primitives whose
validity test accepts everything; the first probe succeeds. -/
theorem c3_witness :
    IdxWf (List.replicate 11 0) ∧
    DiversifierKey.diversifier unitPrims (List.replicate 32 0)
      (List.replicate 11 0) = some (List.replicate 11 0) :=
  ⟨by decide,
    ((c3_find_diversifier_search unitPrims (List.replicate 32 0)
      (List.replicate 11 0) (by decide)).1 _ _ rfl).2.2.1⟩

/-- C4: Serialization round trip.  For every reachable extended spending
key and extended full viewing key — master or derived — deserializing the
serialized bytes returns the key with no bytes left over. -/
theorem c4_serialization_round_trip (P : Prims) (hP : PrimsOk P) :
    (∀ k, ReachableXsk P k →
      ExtendedSpendingKey.read (ExtendedSpendingKey.write k) = some (k, [])) ∧
    (∀ f, ReachableXfvk P f →
      ExtendedFullViewingKey.read P (ExtendedFullViewingKey.write P f) =
        some (f, [])) :=
  ⟨fun k hk => xsk_write_read k (wf_reachable_xsk P hP k hk),
   fun f hf => xfvk_write_read P hP.2.2.1 hP.2.2.2 f
     (wf_reachable_xfvk P hP f hf)⟩

/-- C4 witness: the round trip evaluated at the master key of the empty
seed under the trivial-group primitives. -/
theorem c4_witness :
    PrimsOk unitPrims ∧
    ExtendedSpendingKey.read
      (ExtendedSpendingKey.write (ExtendedSpendingKey.master unitPrims [])) =
      some (ExtendedSpendingKey.master unitPrims [], []) := by
  have hok : PrimsOk unitPrims :=
    ⟨fun k ts => by simp [unitPrims], fun p d n => by simp [unitPrims],
     fun pt => by simp [unitPrims], fun pt => rfl⟩
  exact ⟨hok, (c4_serialization_round_trip unitPrims hok).1 _
    (ReachableXsk.master [])⟩

/-- C5: Diversifier cipher inverse.  Under the format-preserving-cipher
contract (mutually inverse, domain-preserving), any accepted diversifier
decrypts back to the index it was encrypted from, re-encrypting that index
reproduces the diversifier, and decryption is total on 11-byte strings. -/
theorem c5_diversifier_cipher_inverse (P : Prims)
    (hdec : ∀ k x, P.fpeDecrypt k (P.fpeEncrypt k x) = x)
    (henc : ∀ k x, P.fpeEncrypt k (P.fpeDecrypt k x) = x)
    (hdom : ∀ k x, IdxWf x → IdxWf (P.fpeDecrypt k x)) :
    (∀ dk j d, DiversifierKey.diversifier P dk j = some d →
      DiversifierKey.diversifier_index P dk d = j ∧
      DiversifierKey.diversifier P dk
        (DiversifierKey.diversifier_index P dk d) = some d) ∧
    (∀ dk d, IdxWf d → IdxWf (DiversifierKey.diversifier_index P dk d)) := by
  constructor
  · intro dk j d hd
    rw [DiversifierKey.diversifier] at hd
    by_cases hv : P.validDiversifier (P.fpeEncrypt dk j) = true
    · rw [if_pos hv] at hd
      obtain hde := Option.some.injEq .. ▸ hd
      have hidx : DiversifierKey.diversifier_index P dk d = j := by
        rw [DiversifierKey.diversifier_index, ← hde, hdec]
      refine ⟨hidx, ?_⟩
      rw [hidx, DiversifierKey.diversifier, if_pos hv, hde]
    · rw [if_neg hv] at hd
      exact absurd hd (by simp)
  · intro dk d hd
    rw [DiversifierKey.diversifier_index]
    exact hdom dk d hd

/-- C5 witness: evaluated with the identity cipher at index 0 — the
encrypt/decrypt round trip at a concrete accepted diversifier. -/
theorem c5_witness :
    DiversifierKey.diversifier unitPrims (List.replicate 32 0)
      (List.replicate 11 0) = some (List.replicate 11 0) ∧
    DiversifierKey.diversifier_index unitPrims (List.replicate 32 0)
      (List.replicate 11 0) = List.replicate 11 0 :=
  ⟨rfl,
    ((c5_diversifier_cipher_inverse unitPrims (fun k x => rfl) (fun k x => rfl)
      (fun k x h => h)).1 _ _ _ rfl).1⟩

/-- C6 counterexample: under primitives whose validity test rejects every
diversifier, the search from index 0 exhausts, and `sapling_default_address`
— whose Rust return type `(DiversifierIndex, PaymentAddress)` has no
exhaustion case — takes the `unwrap` panic path (modelled as `none`)
instead of returning the exhaustion to the caller, refuting the claim that
all three search operations report exhaustion as an explicit outcome. -/
theorem c6_counterexample :
    DiversifierKey.find_diversifier noDivPrims (List.replicate 32 0)
      (List.replicate 11 0) = none ∧
    sapling_default_address noDivPrims noDivFvk (List.replicate 32 0) = none := by
  have h := findDivLoop_none_of_allInvalid noDivPrims (fun d => rfl)
  refine ⟨h (2 ^ 88) _ _, ?_⟩
  rw [sapling_default_address, sapling_find_address]
  rw [show DiversifierKey.find_diversifier noDivPrims (List.replicate 32 0)
    (List.replicate 11 0) = none from h (2 ^ 88) _ _]

/-- C6 (amended): `find_diversifier` and `sapling_find_address` report
exhaustion to the caller as `None`; `sapling_default_address` always
starts the search at index 0 but `unwrap`s the result, so on exhaustion it
panics (modelled as `none`) rather than returning the exhaustion. -/
theorem c6_exhaustion_reporting (P : Prims) (fvk : FullViewingKey P)
    (dk : List Nat) (j : DiversifierIndex)
    (hex : DiversifierKey.find_diversifier P dk j = none) :
    sapling_find_address P fvk dk j = none ∧
    sapling_default_address P fvk dk =
      sapling_find_address P fvk dk (List.replicate 11 0) := by
  constructor
  · rw [sapling_find_address, hex]
  · rfl

/-- C6 witness: exhaustion reached from the maximum index under the
all-rejecting primitives, propagated by `sapling_find_address`. -/
theorem c6_witness :
    DiversifierKey.find_diversifier noDivPrims (List.replicate 32 0)
      (List.replicate 11 255) = none ∧
    sapling_find_address noDivPrims noDivFvk (List.replicate 32 0)
      (List.replicate 11 255) = none := by
  have hex : DiversifierKey.find_diversifier noDivPrims (List.replicate 32 0)
      (List.replicate 11 255) = none := rfl
  exact ⟨hex, (c6_exhaustion_reporting noDivPrims noDivFvk _ _ hex).1⟩

set_option maxRecDepth 4000 in
/-- C7 counterexample: a 169-byte encoding with depth 0, parent tag
`[1,0,0,0]` (not the all-zero sentinel) and child index 7 (not 0) — which
the claim says must be rejected — is accepted by
`ExtendedSpendingKey::read`. -/
theorem c7_counterexample :
    (ExtendedSpendingKey.read
      ([0, 1, 0, 0, 0, 7, 0, 0, 0] ++ List.replicate 160 0)).map
      (fun r => (r.1.depth, r.1.parent_fvk_tag, r.1.child_index)) =
    some (0, [1, 0, 0, 0], ChildIndex.NonHardened 7) := by decide

/-- C7 (amended): deserialization fails on wrong length (fewer than 169
bytes), and the scalar/point fields are validated, but no consistency
validation of depth against parent tag or child index is performed: any
correctly framed field values — including a depth of 0 with a nonzero
parent tag or child index — are accepted. -/
theorem c7_read_validation :
    (∀ bs : List Nat, bs.length < 169 → ExtendedSpendingKey.read bs = none) ∧
    (∀ (P : Prims) (bs : List Nat), bs.length < 169 →
      ExtendedFullViewingKey.read P bs = none) ∧
    (∀ (d : Nat) (tag ib chain : List Nat) (e : ExpandedSpendingKey)
        (dk : List Nat), tag.length = 4 → ib.length = 4 → chain.length = 32 →
        e.ovk.length = 32 → dk.length = 32 →
        ExtendedSpendingKey.read
          ([d] ++ tag ++ ib ++ chain ++ e.to_bytes ++ dk) =
        some ({ depth := d, parent_fvk_tag := tag,
                child_index := ChildIndex.from_index (leNat ib),
                chain_code := chain, expsk := e, dk := dk }, [])) := by
  refine ⟨?_, ?_, ?_⟩
  · intro bs hlen
    cases hr : ExtendedSpendingKey.read bs with
    | none => rfl
    | some v =>
      have := xsk_read_some bs v.1 v.2 hr
      omega
  · intro P bs hlen
    cases hr : ExtendedFullViewingKey.read P bs with
    | none => rfl
    | some v =>
      have := xfvk_read_some P bs v.1 v.2 hr
      omega
  · intro d tag ib chain e dk htag hib hchain hovk hdk
    have h := xsk_read_fields d tag ib chain e dk [] htag hib hchain hovk hdk
    rw [List.append_nil] at h
    exact h

/-- C7 witness: the empty input is rejected for its length, while a fully
framed inconsistent encoding (depth 0, tag `[1,0,0,0]`, index 7) is
accepted. -/
theorem c7_witness :
    ExtendedSpendingKey.read [] = none ∧
    ExtendedSpendingKey.read ([0] ++ [1, 0, 0, 0] ++ [7, 0, 0, 0] ++
        List.replicate 32 0 ++
        ExpandedSpendingKey.to_bytes ⟨0, 0, List.replicate 32 0⟩ ++
        List.replicate 32 0) =
      some ({ depth := 0, parent_fvk_tag := [1, 0, 0, 0],
              child_index := ChildIndex.from_index (leNat [7, 0, 0, 0]),
              chain_code := List.replicate 32 0,
              expsk := ⟨0, 0, List.replicate 32 0⟩,
              dk := List.replicate 32 0 }, []) :=
  ⟨c7_read_validation.1 [] (by decide),
   c7_read_validation.2.2 0 [1, 0, 0, 0] [7, 0, 0, 0] (List.replicate 32 0)
     ⟨0, 0, List.replicate 32 0⟩ (List.replicate 32 0)
     (by decide) (by decide) (by decide) (by decide) (by decide)⟩

/-- C8 counterexample: incrementing the maximum index (all bytes `0xFF`)
does signal the error, but the stored bytes wrap to all zeros — they are
not left unchanged at the maximum as the claim states. -/
theorem c8_counterexample :
    DiversifierIndex.increment (List.replicate 11 255) =
      (List.replicate 11 0, false) ∧
    List.replicate 11 0 ≠ List.replicate 11 255 := by decide

/-- C8 (amended): incrementing a wellformed index signals the error
exactly at the maximum value; on that error the stored bytes have wrapped
to all zeros (the error return, not the stored value, is what marks the
saturation), and on success the value increases by exactly one. -/
theorem c8_increment_saturation (j : DiversifierIndex) (hj : IdxWf j) :
    ((DiversifierIndex.increment j).2 = false ↔ leNat j = 2 ^ 88 - 1) ∧
    ((DiversifierIndex.increment j).2 = false →
      (DiversifierIndex.increment j).1 = List.replicate 11 0) ∧
    ((DiversifierIndex.increment j).2 = true →
      leNat (DiversifierIndex.increment j).1 = leNat j + 1) := by
  simp only [DiversifierIndex.increment]
  refine ⟨⟨?_, ?_⟩, ?_, ?_⟩
  · intro hf
    rw [incBytes_fail_max11 j hj hf]
    exact leNat_max11
  · intro hv
    have hjm : j = List.replicate 11 255 :=
      idx_eq_of_leNat_eq j (List.replicate 11 255) hj (by decide)
        (by rw [hv, leNat_max11])
    rw [hjm]
    decide
  · intro hf
    have h2 := (incBytes_fail j hj.2 hf).2
    rw [h2, hj.1]
  · intro hs
    exact incBytes_succ j hj.2 hs

/-- C8 witness: applied at the maximum index, where the increment fails. -/
theorem c8_witness :
    IdxWf (List.replicate 11 255) ∧
    ((DiversifierIndex.increment (List.replicate 11 255)).2 = false ↔
      leNat (List.replicate 11 255) = 2 ^ 88 - 1) :=
  ⟨by decide, (c8_increment_saturation (List.replicate 11 255) (by decide)).1⟩

/-- C9: Path equivalence.  `from_path` equals the left fold of
`derive_child` along the index sequence, and appending one index to a path
derives exactly one more child from the path's result. -/
theorem c9_path_equivalence (P : Prims) (m : ExtendedSpendingKey)
    (path : List ChildIndex) :
    ExtendedSpendingKey.from_path P m path =
      path.foldl (ExtendedSpendingKey.derive_child P) m ∧
    ∀ i, ExtendedSpendingKey.from_path P m (path ++ [i]) =
      ExtendedSpendingKey.derive_child P
        (ExtendedSpendingKey.from_path P m path) i := by
  constructor
  · induction path generalizing m with
    | nil => rfl
    | cons a rest ih =>
      simp only [ExtendedSpendingKey.from_path, List.foldl]
      exact ih _
  · intro i
    induction path generalizing m with
    | nil => rfl
    | cons a rest ih =>
      simp only [ExtendedSpendingKey.from_path, List.cons_append]
      exact ih _

/-- C10: Frame of internal-key derivation.  `derive_internal` on a
spending key preserves depth, parent tag, child index, chain code and the
spend-authorizing scalar `ask` (hence the projected `ak`), while replacing
`nsk`, the diversifier key and the outgoing viewing key with the freshly
derived internal values; `ExtendedFullViewingKey::derive_internal`
likewise preserves `ak` and the non-key fields while replacing `nk`, the
diversifier key and the outgoing viewing key per
`sapling_derive_internal_fvk`. -/
theorem c10_internal_frame (P : Prims) :
    (∀ xsk : ExtendedSpendingKey,
      (ExtendedSpendingKey.derive_internal P xsk).depth = xsk.depth ∧
      (ExtendedSpendingKey.derive_internal P xsk).parent_fvk_tag =
        xsk.parent_fvk_tag ∧
      (ExtendedSpendingKey.derive_internal P xsk).child_index =
        xsk.child_index ∧
      (ExtendedSpendingKey.derive_internal P xsk).chain_code =
        xsk.chain_code ∧
      (ExtendedSpendingKey.derive_internal P xsk).expsk.ask =
        xsk.expsk.ask ∧
      (FullViewingKey.from_expanded_spending_key P
        (ExtendedSpendingKey.derive_internal P xsk).expsk).ak =
        (FullViewingKey.from_expanded_spending_key P xsk.expsk).ak ∧
      (ExtendedSpendingKey.derive_internal P xsk).expsk.nsk =
        fromBytesWide (prfExpand P
          (P.blake2b ZIP32_SAPLING_INT_PERSONALIZATION
            (FullViewingKey.to_bytes P
              (FullViewingKey.from_expanded_spending_key P xsk.expsk) ++
              xsk.dk) 32) [0x17]) + xsk.expsk.nsk ∧
      (ExtendedSpendingKey.derive_internal P xsk).expsk.ovk =
        (prfExpand P
          (P.blake2b ZIP32_SAPLING_INT_PERSONALIZATION
            (FullViewingKey.to_bytes P
              (FullViewingKey.from_expanded_spending_key P xsk.expsk) ++
              xsk.dk) 32) [0x18]).drop 32 ∧
      (ExtendedSpendingKey.derive_internal P xsk).dk =
        (prfExpand P
          (P.blake2b ZIP32_SAPLING_INT_PERSONALIZATION
            (FullViewingKey.to_bytes P
              (FullViewingKey.from_expanded_spending_key P xsk.expsk) ++
              xsk.dk) 32) [0x18]).take 32) ∧
    (∀ xfvk : ExtendedFullViewingKey P,
      (ExtendedFullViewingKey.derive_internal P xfvk).depth = xfvk.depth ∧
      (ExtendedFullViewingKey.derive_internal P xfvk).parent_fvk_tag =
        xfvk.parent_fvk_tag ∧
      (ExtendedFullViewingKey.derive_internal P xfvk).child_index =
        xfvk.child_index ∧
      (ExtendedFullViewingKey.derive_internal P xfvk).chain_code =
        xfvk.chain_code ∧
      (ExtendedFullViewingKey.derive_internal P xfvk).fvk.ak =
        xfvk.fvk.ak ∧
      (ExtendedFullViewingKey.derive_internal P xfvk).fvk =
        (sapling_derive_internal_fvk P xfvk.fvk xfvk.dk).1 ∧
      (ExtendedFullViewingKey.derive_internal P xfvk).dk =
        (sapling_derive_internal_fvk P xfvk.fvk xfvk.dk).2) :=
  ⟨fun xsk => ⟨rfl, rfl, rfl, rfl, rfl, rfl, rfl, rfl, rfl⟩,
   fun xfvk => ⟨rfl, rfl, rfl, rfl, rfl, rfl, rfl⟩⟩

end Masp
